import Mathlib

/-!
Verification of `src/editor/chinese-segmentation.js` (heynote Chinese word
segmentation layer) against its natural-language specification.

Modelling conventions (shallow embedding):
* A JS string is a list of UTF-16 code units (`JText := List Nat`); every
  character relevant here (the CJK detection range `一`-`龥`, ASCII)
  occupies one code unit, so JS string indices coincide with list indices.
* The external tokenizer (`segment.doSegment`) is a black box: every function
  that calls it takes a parameter `doSegment : JText -> List JText` returning
  the list of segment words (`seg.w` in the JS code) in order.
* The host editor state is modelled by the pieces the code reads: `lineAt`
  (the `state.doc.lineAt` lookup), a document as a `JText` with `sliceString`
  as take/drop, selection ranges with `anchor`/`head` and derived
  `from`/`to`, and a `readOnly` flag.
* The JS fallback expression `defaultCommand(target)(range)` applies a
  CodeMirror `Command`/`StateCommand` (a function `target -> boolean`) to
  `target`, obtaining a boolean, and then calls that boolean with `(range)`;
  in JavaScript this raises a `TypeError`.  The per-range callbacks are
  therefore embedded as `Except JsError _`, with the fallback branch
  returning `.error .typeError`.
-/

namespace ChineseSeg

/-- A JS string: a list of UTF-16 code units. -/
abbrev JText := List Nat

/-- Source function `containsChinese(text)`: `/[一-龥]/.test(text)`. -/
def containsChinese (text : JText) : Bool :=
  text.any (fun c => 0x4e00 ≤ c && c ≤ 0x9fa5)

/-- The record `{ from, to, word }` returned by the lookup functions
(`from` is a Lean keyword, hence the field name `from_`). -/
structure WordInfo where
  from_ : Nat
  to_ : Nat
  word : JText
  deriving DecidableEq, Repr

/-- Spec-side helper for stating theorems: the segments of a segmentation
result annotated with their cumulative `[start, end)` offsets, starting the
running offset at `cur`.  (The JS loops recompute exactly these offsets via
`currentPos`.) -/
def segSpans (cur : Nat) : List JText → List WordInfo
  | [] => []
  | w :: rest => ⟨cur, cur + w.length, w⟩ :: segSpans (cur + w.length) rest

/-- The scan loop of `findChineseWordAt`: walks the segments accumulating
`currentPos`, returning the first segment with `pos >= start && pos < end`. -/
def findWordAtLoop (pos : Nat) : Nat → List JText → Option WordInfo
  | _, [] => none
  | currentPos, seg :: rest =>
    if pos ≥ currentPos && pos < currentPos + seg.length then
      some ⟨currentPos, currentPos + seg.length, seg⟩
    else
      findWordAtLoop pos (currentPos + seg.length) rest

/-- Source function `findChineseWordAt(text, pos)`. -/
def findChineseWordAt (doSegment : JText → List JText) (text : JText) (pos : Nat) :
    Option WordInfo :=
  if !containsChinese text then none
  else findWordAtLoop pos 0 (doSegment text)

/-- The scan loop of `findNextChineseWord`: forward it returns the first
segment with `start > pos` and `null` after the loop; backward it returns
`prevWord` as soon as it reaches a segment with `start >= pos`, recording
each passed segment in `prevWord`, and returns `prevWord` after the loop. -/
def findNextLoop (pos : Nat) (forward : Bool) :
    Nat → Option WordInfo → List JText → Option WordInfo
  | _, prevWord, [] => if forward then none else prevWord
  | currentPos, prevWord, seg :: rest =>
    if forward then
      if currentPos > pos then some ⟨currentPos, currentPos + seg.length, seg⟩
      else findNextLoop pos forward (currentPos + seg.length) prevWord rest
    else
      if currentPos ≥ pos then prevWord
      else findNextLoop pos forward (currentPos + seg.length)
        (some ⟨currentPos, currentPos + seg.length, seg⟩) rest

/-- Source function `findNextChineseWord(text, pos, forward)`. -/
def findNextChineseWord (doSegment : JText → List JText) (text : JText) (pos : Nat)
    (forward : Bool) : Option WordInfo :=
  if !containsChinese text then none
  else findNextLoop pos forward 0 none (doSegment text)

/-! ## Host editor model -/

/-- The part of `state.doc.lineAt(offset)` that the commands read:
the line's text and its starting document offset (`line.from`). -/
structure Line where
  text : JText
  lfrom : Nat
  deriving DecidableEq, Repr

/-- A CodeMirror `SelectionRange`: `from`/`to` are the sorted `anchor`/`head`
(field names `sfrom`/`sto` since `from` is a Lean keyword). -/
structure SelRange where
  anchor : Nat
  head : Nat
  deriving DecidableEq, Repr

def SelRange.sfrom (r : SelRange) : Nat := min r.anchor r.head

def SelRange.sto (r : SelRange) : Nat := max r.anchor r.head

/-- The host call `EditorSelection.cursor(pos)`. -/
def cursor (pos : Nat) : SelRange := ⟨pos, pos⟩

/-- The host call `EditorSelection.range(anchor, head)`. -/
def selRange (anchor head : Nat) : SelRange := ⟨anchor, head⟩

/-- The `changes: {from, to}` object of a per-range result (a deletion span). -/
structure ChangeSpec where
  cfrom : Nat
  cto : Nat
  deriving DecidableEq, Repr

/-- The value a `changeByRange` callback returns: an optional deletion span
plus the new selection range for this range. -/
structure RangeOutcome where
  changes : Option ChangeSpec
  range : SelRange
  deriving DecidableEq, Repr

/-- The only runtime error this layer can raise: the fallback expression
`defaultCommand(target)(range)` calls the boolean result of
`defaultCommand(target)` as a function. -/
inductive JsError where
  | typeError
  deriving DecidableEq, Repr

/-- The per-range callback of `deleteByGroup` (the function passed to
`state.changeByRange`).  `lineAt` models `state.doc.lineAt`.  The fallback
branch `return defaultCommand(target)(range)` is a JS `TypeError` (see the
file header), embedded as `.error .typeError`. -/
def deleteByGroupRange (doSegment : JText → List JText) (lineAt : Nat → Line)
    (forward : Bool) (range : SelRange) : Except JsError RangeOutcome :=
  let rfrom := range.sfrom
  let rto := range.sto
  if rfrom = rto then
    let line := lineAt rfrom
    let text := line.text
    let relativePos := rfrom - line.lfrom
    if containsChinese text then
      match findNextChineseWord doSegment text relativePos forward with
      | some wordInfo =>
        if forward then
          .ok ⟨some ⟨line.lfrom + relativePos, line.lfrom + wordInfo.to_⟩,
               cursor (line.lfrom + relativePos)⟩
        else
          .ok ⟨some ⟨line.lfrom + wordInfo.from_, line.lfrom + relativePos⟩,
               cursor (line.lfrom + wordInfo.from_)⟩
      | none => .error .typeError
    else .error .typeError
  else
    .ok ⟨some ⟨rfrom, rto⟩, cursor rfrom⟩

/-- The per-range callback of `moveByGroup`.  On a hit the new head is
`line.from + wordInfo.from` in both directions; `extend` keeps the anchor.
Both miss branches reach `defaultCommand(target)(range)`, the `TypeError`. -/
def moveByGroupRange (doSegment : JText → List JText) (lineAt : Nat → Line)
    (forward extend : Bool) (range : SelRange) : Except JsError RangeOutcome :=
  let pos := range.head
  let line := lineAt pos
  let text := line.text
  let relativePos := pos - line.lfrom
  match (if containsChinese text then
          findNextChineseWord doSegment text relativePos forward
         else none) with
  | some wordInfo =>
    let newPos := line.lfrom + wordInfo.from_
    .ok ⟨none, if extend then selRange range.anchor newPos else cursor newPos⟩
  | none => .error .typeError

/-- The host call `state.changeByRange(f)` applied to the ranges of the selection: the
callback runs on each range in order; a JS exception thrown by the callback
propagates immediately. -/
def mapRanges (f : SelRange → Except JsError RangeOutcome) :
    List SelRange → Except JsError (List RangeOutcome)
  | [] => .ok []
  | r :: rest =>
    match f r with
    | .error e => .error e
    | .ok o =>
      match mapRanges f rest with
      | .error e => .error e
      | .ok os => .ok (o :: os)

/-- Observable outcome of one command invocation on the editor:
`noop` = the command returned `false` without dispatching any update (the
document and selection are untouched); `thrown e` = an exception escaped
before `target.dispatch` ran; `dispatched os` = one update built from the
per-range results was dispatched and the command returned `true`. -/
inductive CommandResult where
  | noop
  | thrown (e : JsError)
  | dispatched (outcomes : List RangeOutcome)
  deriving DecidableEq, Repr

/-- Source function `deleteByGroup(target, forward)`: checks `target.state.readOnly` first
(returning `false` with no dispatch), then runs `changeByRange` and
dispatches the resulting update. -/
def deleteByGroup (doSegment : JText → List JText) (lineAt : Nat → Line)
    (readOnly forward : Bool) (sel : List SelRange) : CommandResult :=
  if readOnly then .noop
  else
    match mapRanges (deleteByGroupRange doSegment lineAt forward) sel with
    | .error e => .thrown e
    | .ok os => .dispatched os

/-- Source function `moveByGroup(target, forward, extend)`: no read-only check; runs
`changeByRange` and dispatches.  `readOnly` is the `state.readOnly` field of
the target the command receives; the source never reads it. -/
def moveByGroup (doSegment : JText → List JText) (lineAt : Nat → Line)
    (readOnly forward extend : Bool) (sel : List SelRange) : CommandResult :=
  let _ := readOnly
  match mapRanges (moveByGroupRange doSegment lineAt forward extend) sel with
  | .error e => .thrown e
  | .ok os => .dispatched os

/-! ## Decoration builder -/

/-- A decoration mark range emitted by `builder.add(start, end, segmentMark)`. -/
structure DecoRange where
  dfrom : Nat
  dto : Nat
  deriving DecidableEq, Repr

/-- The host call `doc.sliceString(f, t)`: the code units in `[f, t)`. -/
def sliceString (doc : JText) (f t : Nat) : JText := (doc.drop f).take (t - f)

/-- The inner segment walk of `buildDecorations` for one visible range
starting at document offset `f`: `pos` is the running offset, starting at 0. -/
def decoLoop (f : Nat) : Nat → List JText → List DecoRange
  | _, [] => []
  | pos, seg :: rest =>
    ⟨f + pos, f + pos + seg.length⟩ :: decoLoop f (pos + seg.length) rest

/-- The body of `buildDecorations` for one visible range `{from, to}`:
slice the document, skip if no Chinese, else emit one mark per segment. -/
def decorationsForRange (doSegment : JText → List JText) (doc : JText)
    (f t : Nat) : List DecoRange :=
  let text := sliceString doc f t
  if containsChinese text then decoLoop f 0 (doSegment text) else []

/-- Source method `buildDecorations(view)`: the concatenation of the per-visible-range
decorations, ranges processed in order. -/
def buildDecorations (doSegment : JText → List JText) (doc : JText)
    (visibleRanges : List (Nat × Nat)) : List DecoRange :=
  (visibleRanges.map (fun r => decorationsForRange doSegment doc r.1 r.2)).flatten

/-! ## Concrete data for examples and witnesses -/

/-- The spec's example text `"我爱北京天安门"` as code units. -/
def demoText : JText := [0x6211, 0x7231, 0x5317, 0x4eac, 0x5929, 0x5b89, 0x95e8]

/-- The spec's idealized tokenizer: segments `demoText` into
`["我爱", "北京", "天安门"]` and returns any other text as one segment. -/
def idealSegment (t : JText) : List JText :=
  if t = demoText then
    [[0x6211, 0x7231], [0x5317, 0x4eac], [0x5929, 0x5b89, 0x95e8]]
  else [t]

/-- The text `"hello world"` as code units (no segmentable script). -/
def helloText : JText := [104, 101, 108, 108, 111, 32, 119, 111, 114, 108, 100]

/-- A one-line document model whose single line is `text` at offset 0. -/
def singleLineAt (text : JText) : Nat → Line := fun _ => ⟨text, 0⟩

/-- Total length of a segmentation result (used to state the tokenizer
coverage contract `sum of segment lengths = input length`). -/
def sumLen (segs : List JText) : Nat := (segs.map List.length).sum

end ChineseSeg

namespace ChineseSeg

/-! ## Basic facts about cumulative segment spans -/

theorem sumLen_cons (w : JText) (rest : List JText) :
    sumLen (w :: rest) = w.length + sumLen rest := by
  simp [sumLen]

theorem mem_segSpans_le {segs : List JText} :
    ∀ {c : Nat} {s : WordInfo}, s ∈ segSpans c segs → c ≤ s.from_ := by
  induction segs with
  | nil => intro c s h; simp [segSpans] at h
  | cons w rest ih =>
    intro c s h
    simp only [segSpans, List.mem_cons] at h
    rcases h with h | h
    · subst h; exact Nat.le_refl _
    · exact Nat.le_trans (Nat.le_add_right _ _) (ih h)

theorem mem_segSpans_from_le_to {segs : List JText} :
    ∀ {c : Nat} {s : WordInfo}, s ∈ segSpans c segs → s.from_ ≤ s.to_ := by
  induction segs with
  | nil => intro c s h; simp [segSpans] at h
  | cons w rest ih =>
    intro c s h
    simp only [segSpans, List.mem_cons] at h
    rcases h with h | h
    · subst h; exact Nat.le_add_right _ _
    · exact ih h

theorem mem_segSpans_to_le {segs : List JText} :
    ∀ {c : Nat} {s : WordInfo}, s ∈ segSpans c segs → s.to_ ≤ c + sumLen segs := by
  induction segs with
  | nil => intro c s h; simp [segSpans] at h
  | cons w rest ih =>
    intro c s h
    simp only [segSpans, List.mem_cons] at h
    rcases h with h | h
    · subst h
      show c + w.length ≤ c + sumLen (w :: rest)
      rw [sumLen_cons]; omega
    · have := ih h; rw [sumLen_cons]; omega

theorem segSpans_chain' {segs : List JText} :
    ∀ {c : Nat}, List.Chain' (fun a b : WordInfo => a.to_ = b.from_) (segSpans c segs) := by
  induction segs with
  | nil => intro c; simp [segSpans]
  | cons w rest ih =>
    intro c
    cases rest with
    | nil => simp [segSpans]
    | cons w' rest' =>
      refine List.chain'_cons.2 ⟨rfl, ?_⟩
      exact ih

/-! ## Characterization of the scan loops -/

theorem findWordAtLoop_eq_some (pos : Nat) (segs : List JText) :
    ∀ (c : Nat) (s : WordInfo),
      findWordAtLoop pos c segs = some s ↔
        s ∈ segSpans c segs ∧ s.from_ ≤ pos ∧ pos < s.to_ := by
  induction segs with
  | nil => intro c s; simp [findWordAtLoop, segSpans]
  | cons w rest ih =>
    intro c s
    by_cases hc : c ≤ pos ∧ pos < c + w.length
    · have hcond : (decide (pos ≥ c) && decide (pos < c + w.length)) = true := by
        simp [hc.1, hc.2]
      constructor
      · intro h
        simp only [findWordAtLoop, hcond, if_true] at h
        cases h
        exact ⟨by simp [segSpans], hc.1, hc.2⟩
      · rintro ⟨hmem, hle, hlt⟩
        simp only [segSpans, List.mem_cons] at hmem
        rcases hmem with hmem | hmem
        · subst hmem; simp [findWordAtLoop, hcond]
        · have := mem_segSpans_le hmem
          omega
    · have hcond : (decide (pos ≥ c) && decide (pos < c + w.length)) = false := by
        rw [Bool.and_eq_false_iff]
        rcases Decidable.not_and_iff_or_not.1 hc with h | h
        · left; simpa using h
        · right; simpa using h
      constructor
      · intro h
        simp only [findWordAtLoop, hcond, Bool.false_eq_true, if_false] at h
        have := (ih (c + w.length) s).1 h
        exact ⟨by simp [segSpans, this.1], this.2.1, this.2.2⟩
      · rintro ⟨hmem, hle, hlt⟩
        simp only [segSpans, List.mem_cons] at hmem
        rcases hmem with hmem | hmem
        · subst hmem; simp at hle hlt; omega
        · simp only [findWordAtLoop, hcond, Bool.false_eq_true, if_false]
          exact (ih (c + w.length) s).2 ⟨hmem, hle, hlt⟩

theorem findNextLoop_forward_eq (pos : Nat) (segs : List JText) :
    ∀ (c : Nat) (prev : Option WordInfo),
      findNextLoop pos true c prev segs =
        (segSpans c segs).find? (fun s => decide (pos < s.from_)) := by
  induction segs with
  | nil => intro c prev; simp [findNextLoop, segSpans]
  | cons w rest ih =>
    intro c prev
    by_cases hc : pos < c
    · rw [show segSpans c (w :: rest) = ⟨c, c + w.length, w⟩ :: segSpans (c + w.length) rest from rfl,
        List.find?_cons_of_pos _ (by simpa using hc)]
      simp [findNextLoop, hc]
    · rw [show segSpans c (w :: rest) = ⟨c, c + w.length, w⟩ :: segSpans (c + w.length) rest from rfl,
        List.find?_cons_of_neg _ (by simpa using hc)]
      have : ¬ c > pos := by omega
      simp only [findNextLoop, this, if_false]
      simpa using ih (c + w.length) prev

theorem segSpans_filter_lt_nil {segs : List JText} {c bound : Nat} (h : bound ≤ c) :
    (segSpans c segs).filter (fun s => decide (s.from_ < bound)) = [] := by
  rw [List.filter_eq_nil_iff]
  intro s hs
  have := mem_segSpans_le hs
  simp only [decide_eq_true_eq]
  omega

theorem findNextLoop_backward_eq (pos : Nat) (segs : List JText) :
    ∀ (c : Nat) (prev : Option WordInfo),
      findNextLoop pos false c prev segs =
        (((segSpans c segs).filter (fun s => decide (s.from_ < pos))).getLast?).or prev := by
  induction segs with
  | nil => intro c prev; simp [findNextLoop, segSpans, Option.none_or]
  | cons w rest ih =>
    intro c prev
    by_cases hc : c ≥ pos
    · have hfilter : (segSpans c (w :: rest)).filter (fun s => decide (s.from_ < pos)) = [] :=
        segSpans_filter_lt_nil hc
      rw [hfilter]
      simp [findNextLoop, hc, Option.none_or]
    · have hcp : c < pos := Nat.lt_of_not_le hc
      have hstep : findNextLoop pos false c prev (w :: rest) =
          findNextLoop pos false (c + w.length) (some ⟨c, c + w.length, w⟩) rest := by
        simp [findNextLoop, hc]
      rw [hstep, ih]
      rw [show segSpans c (w :: rest) = ⟨c, c + w.length, w⟩ :: segSpans (c + w.length) rest from rfl,
        List.filter_cons_of_pos (by simpa using hcp), List.getLast?_cons]
      cases hlast : ((segSpans (c + w.length) rest).filter
          (fun s => decide (s.from_ < pos))).getLast? with
      | none => simp [hlast, Option.none_or]
      | some x => simp [hlast]

theorem findNextChineseWord_forward_eq (d : JText → List JText) (text : JText)
    (pos : Nat) (h : containsChinese text = true) :
    findNextChineseWord d text pos true
      = (segSpans 0 (d text)).find? (fun s => decide (pos < s.from_)) := by
  rw [findNextChineseWord, h]
  simpa using (findNextLoop_forward_eq pos (d text) 0 none)

theorem findNextChineseWord_backward_eq (d : JText → List JText) (text : JText)
    (pos : Nat) (h : containsChinese text = true) :
    findNextChineseWord d text pos false
      = ((segSpans 0 (d text)).filter (fun s => decide (s.from_ < pos))).getLast? := by
  rw [findNextChineseWord, h]
  simpa [Option.or_none] using (findNextLoop_backward_eq pos (d text) 0 none)

/-- Claim C2: for text containing segmentable script, the adjacent-word
search `findNextChineseWord text pos forward` returns, forward, the first
segment whose start is strictly greater than `pos` (so a position inside a
segment skips to the next segment), and backward, the last segment whose
start is strictly less than `pos`; in each direction it returns `none`
exactly when no such segment exists. -/
theorem findNextChineseWord_adjacent_spec (d : JText → List JText) (text : JText)
    (pos : Nat) (h : containsChinese text = true) :
    findNextChineseWord d text pos true
        = (segSpans 0 (d text)).find? (fun s => decide (pos < s.from_))
    ∧ findNextChineseWord d text pos false
        = ((segSpans 0 (d text)).filter (fun s => decide (s.from_ < pos))).getLast?
    ∧ (findNextChineseWord d text pos true = none ↔
        ∀ s ∈ segSpans 0 (d text), ¬ pos < s.from_)
    ∧ (findNextChineseWord d text pos false = none ↔
        ∀ s ∈ segSpans 0 (d text), ¬ s.from_ < pos) := by
  refine ⟨findNextChineseWord_forward_eq d text pos h,
    findNextChineseWord_backward_eq d text pos h, ?_, ?_⟩
  · rw [findNextChineseWord_forward_eq d text pos h, List.find?_eq_none]
    simp
  · rw [findNextChineseWord_backward_eq d text pos h, List.getLast?_eq_none_iff,
      List.filter_eq_nil_iff]
    simp

/-- Witness for claim C2 at the spec's example text with `pos = 3`. -/
theorem findNextChineseWord_adjacent_spec_witness :
    containsChinese demoText = true
    ∧ (findNextChineseWord idealSegment demoText 3 true
        = (segSpans 0 (idealSegment demoText)).find? (fun s => decide (3 < s.from_))
      ∧ findNextChineseWord idealSegment demoText 3 false
        = ((segSpans 0 (idealSegment demoText)).filter
            (fun s => decide (s.from_ < 3))).getLast?
      ∧ (findNextChineseWord idealSegment demoText 3 true = none ↔
          ∀ s ∈ segSpans 0 (idealSegment demoText), ¬ 3 < s.from_)
      ∧ (findNextChineseWord idealSegment demoText 3 false = none ↔
          ∀ s ∈ segSpans 0 (idealSegment demoText), ¬ s.from_ < 3)) :=
  ⟨by decide, findNextChineseWord_adjacent_spec idealSegment demoText 3 (by decide)⟩

/-- Claim C4: `findChineseWordAt text pos` returns the segment `[start, end)`
with `start <= pos < end` when one exists (a boundary position belongs to the
segment starting there), and returns `none` when the text has no segmentable
script or `pos` falls outside all segments, including `pos = length text`
(assuming the tokenizer's coverage contract); on the example text
`"我爱北京天安门"` with the idealized tokenizer, position 3 yields the
segment `{from := 2, to := 4, word := "北京"}`. -/
theorem findChineseWordAt_spec (d : JText → List JText) (text : JText) (pos : Nat) :
    (∀ s : WordInfo, findChineseWordAt d text pos = some s ↔
        containsChinese text = true ∧ s ∈ segSpans 0 (d text)
          ∧ s.from_ ≤ pos ∧ pos < s.to_)
    ∧ (containsChinese text = false → findChineseWordAt d text pos = none)
    ∧ ((∀ s ∈ segSpans 0 (d text), ¬ (s.from_ ≤ pos ∧ pos < s.to_)) →
        findChineseWordAt d text pos = none)
    ∧ (sumLen (d text) = text.length → findChineseWordAt d text text.length = none)
    ∧ findChineseWordAt idealSegment demoText 3 = some ⟨2, 4, [0x5317, 0x4eac]⟩ := by
  have hsome : ∀ s : WordInfo, findChineseWordAt d text pos = some s ↔
      containsChinese text = true ∧ s ∈ segSpans 0 (d text)
        ∧ s.from_ ≤ pos ∧ pos < s.to_ := by
    intro s
    cases hch : containsChinese text with
    | false => simp [findChineseWordAt, hch]
    | true =>
      rw [findChineseWordAt, hch]
      simpa using (findWordAtLoop_eq_some pos (d text) 0 s)
  have hmiss : ∀ (q : Nat), (∀ s ∈ segSpans 0 (d text), ¬ (s.from_ ≤ q ∧ q < s.to_)) →
      findChineseWordAt d text q = none := by
    intro q hq
    cases hch : containsChinese text with
    | false => simp [findChineseWordAt, hch]
    | true =>
      cases hres : findChineseWordAt d text q with
      | none => rfl
      | some s =>
        have hs : containsChinese text = true ∧ s ∈ segSpans 0 (d text)
            ∧ s.from_ ≤ q ∧ q < s.to_ := by
          have := (findWordAtLoop_eq_some q (d text) 0 s).1
            (by rw [findChineseWordAt, hch] at hres; simpa using hres)
          exact ⟨hch, this⟩
        exact absurd hs.2 (by intro hc; exact hq s hc.1 ⟨hc.2.1, hc.2.2⟩)
  refine ⟨hsome, ?_, hmiss pos, ?_, by decide⟩
  · intro hch; simp [findChineseWordAt, hch]
  · intro hcov
    refine hmiss text.length ?_
    intro s hs
    have := mem_segSpans_to_le hs
    rw [Nat.zero_add, hcov] at this
    omega

/-- Witness for claim C4: the not-found branches at concrete inputs
(`"hello world"` has no Chinese; `pos = length` on the example text). -/
theorem findChineseWordAt_spec_witness :
    (containsChinese helloText = false
      ∧ findChineseWordAt idealSegment helloText 0 = none)
    ∧ (sumLen (idealSegment demoText) = demoText.length
      ∧ findChineseWordAt idealSegment demoText demoText.length = none) :=
  ⟨⟨by decide, (findChineseWordAt_spec idealSegment helloText 0).2.1 (by decide)⟩,
   ⟨by decide, (findChineseWordAt_spec idealSegment demoText 0).2.2.2.1 (by decide)⟩⟩

/-- Counterexample to claim C3: with a tokenizer that yields the single
segment `"一丁"` spanning position 0, the backward search from position 1
(strictly inside the segment) returns that segment, not `none`. -/
theorem findNext_backward_single_segment_cex :
    containsChinese [0x4e00, 0x4e01] = true
    ∧ (fun t : JText => [t]) [0x4e00, 0x4e01] = [[0x4e00, 0x4e01]]
    ∧ (0 : Nat) < 1 ∧ (1 : Nat) < 2
    ∧ findNextChineseWord (fun t : JText => [t]) [0x4e00, 0x4e01] 1 false
        = some ⟨0, 2, [0x4e00, 0x4e01]⟩
    ∧ ¬ findNextChineseWord (fun t : JText => [t]) [0x4e00, 0x4e01] 1 false = none := by
  refine ⟨by decide, rfl, by decide, by decide, by decide, by decide⟩

/-- Claim C3 (amended): if segmenting the text yields exactly one segment
(which therefore spans position 0), the backward adjacent-word search from
any position strictly inside that segment returns that very segment
`{from := 0, to := length w, word := w}` — not `none` as the original claim
stated: after the loop records the segment as `prevWord`, the final
`return forward ? null : prevWord` yields it. -/
theorem findNext_backward_single_segment_spec (d : JText → List JText)
    (text w : JText) (pos : Nat)
    (hch : containsChinese text = true)
    (hseg : d text = [w])
    (h0 : 0 < pos) (_hend : pos < w.length) :
    findNextChineseWord d text pos false = some ⟨0, w.length, w⟩ := by
  rw [findNextChineseWord, hch]
  simp only [Bool.not_true, Bool.false_eq_true, if_false, hseg]
  have h0' : ¬ (0 : Nat) ≥ pos := by omega
  simp [findNextLoop, h0']

/-- Witness for the amended claim C3 at the counterexample's input. -/
theorem findNext_backward_single_segment_spec_witness :
    containsChinese [0x4e00, 0x4e01] = true
    ∧ (fun t : JText => [t]) [0x4e00, 0x4e01] = [[0x4e00, 0x4e01]]
    ∧ (0 : Nat) < 1
    ∧ (1 : Nat) < ([0x4e00, 0x4e01] : JText).length
    ∧ findNextChineseWord (fun t : JText => [t]) [0x4e00, 0x4e01] 1 false
        = some ⟨0, ([0x4e00, 0x4e01] : JText).length, [0x4e00, 0x4e01]⟩ :=
  ⟨by decide, rfl, by decide, by decide,
    findNext_backward_single_segment_spec (fun t : JText => [t]) [0x4e00, 0x4e01]
      [0x4e00, 0x4e01] 1 (by decide) rfl (by decide) (by decide)⟩

/-- Claim C5: for a caret on a line whose text contains segmentable script
and where the adjacent-word search succeeds with `w`, delete-word-forward
deletes exactly `[caret, line.from + w.to)` and delete-word-backward deletes
exactly `[line.from + w.from, caret)`, the caret landing at the deleted
span's start in both cases; in particular a caret at offset 4 of
`"我爱北京天安门"` with delete-backward deletes `[2, 4)` and lands at 2. -/
theorem deleteByGroup_caret_spec (d : JText → List JText) (lineAt : Nat → Line)
    (forward : Bool) (r : SelRange) (w : WordInfo)
    (hc : r.anchor = r.head)
    (hl : (lineAt r.sfrom).lfrom ≤ r.sfrom)
    (hch : containsChinese (lineAt r.sfrom).text = true)
    (hw : findNextChineseWord d (lineAt r.sfrom).text
        (r.sfrom - (lineAt r.sfrom).lfrom) forward = some w) :
    deleteByGroupRange d lineAt forward r =
      (if forward then
        Except.ok ⟨some ⟨r.sfrom, (lineAt r.sfrom).lfrom + w.to_⟩, cursor r.sfrom⟩
      else
        Except.ok ⟨some ⟨(lineAt r.sfrom).lfrom + w.from_, r.sfrom⟩,
          cursor ((lineAt r.sfrom).lfrom + w.from_)⟩)
    ∧ deleteByGroupRange idealSegment (singleLineAt demoText) false ⟨4, 4⟩
        = Except.ok ⟨some ⟨2, 4⟩, cursor 2⟩ := by
  refine ⟨?_, rfl⟩
  have heq : r.sfrom = r.sto := by
    simp [SelRange.sfrom, SelRange.sto, hc]
  have hre : (lineAt r.sfrom).lfrom + (r.sfrom - (lineAt r.sfrom).lfrom) = r.sfrom :=
    Nat.add_sub_cancel' hl
  cases forward with
  | true =>
    simp only [deleteByGroupRange]
    rw [if_pos heq]
    simp only [hch, hw, hre, if_true]
  | false =>
    simp only [deleteByGroupRange]
    rw [if_pos heq]
    simp only [hch, hw, hre, if_true, Bool.false_eq_true, if_false]

/-- Witness for claim C5 at the spec's scenario: caret at offset 4 of the
example line, delete-backward. -/
theorem deleteByGroup_caret_spec_witness :
    SelRange.anchor ⟨4, 4⟩ = SelRange.head ⟨4, 4⟩
    ∧ (singleLineAt demoText (SelRange.sfrom ⟨4, 4⟩)).lfrom ≤ SelRange.sfrom ⟨4, 4⟩
    ∧ containsChinese (singleLineAt demoText (SelRange.sfrom ⟨4, 4⟩)).text = true
    ∧ findNextChineseWord idealSegment
        (singleLineAt demoText (SelRange.sfrom ⟨4, 4⟩)).text
        (SelRange.sfrom ⟨4, 4⟩ - (singleLineAt demoText (SelRange.sfrom ⟨4, 4⟩)).lfrom)
        false = some ⟨2, 4, [0x5317, 0x4eac]⟩
    ∧ (deleteByGroupRange idealSegment (singleLineAt demoText) false ⟨4, 4⟩ =
        (if false then
          Except.ok ⟨some ⟨SelRange.sfrom ⟨4, 4⟩,
            (singleLineAt demoText (SelRange.sfrom ⟨4, 4⟩)).lfrom
              + WordInfo.to_ ⟨2, 4, [0x5317, 0x4eac]⟩⟩, cursor (SelRange.sfrom ⟨4, 4⟩)⟩
        else
          Except.ok ⟨some ⟨(singleLineAt demoText (SelRange.sfrom ⟨4, 4⟩)).lfrom
              + WordInfo.from_ ⟨2, 4, [0x5317, 0x4eac]⟩, SelRange.sfrom ⟨4, 4⟩⟩,
            cursor ((singleLineAt demoText (SelRange.sfrom ⟨4, 4⟩)).lfrom
              + WordInfo.from_ ⟨2, 4, [0x5317, 0x4eac]⟩)⟩)
      ∧ deleteByGroupRange idealSegment (singleLineAt demoText) false ⟨4, 4⟩
        = Except.ok ⟨some ⟨2, 4⟩, cursor 2⟩) :=
  ⟨rfl, by decide, by decide, by decide,
    deleteByGroup_caret_spec idealSegment (singleLineAt demoText) false ⟨4, 4⟩
      ⟨2, 4, [0x5317, 0x4eac]⟩ rfl (by decide) (by decide) (by decide)⟩

/-- Claim C6: for move/select-by-word where the line contains segmentable
script and the adjacent-word search succeeds with `w`, the new head is
`line.from + w.from` (the start of the adjacent segment) in both directions;
with `extend` the anchor is kept, otherwise the selection collapses to a
caret; in particular a caret at offset 2 of `"我爱北京天安门"` with
move-right lands at offset 4 (the start of the next word, not its end). -/
theorem moveByGroup_head_spec (d : JText → List JText) (lineAt : Nat → Line)
    (forward extend : Bool) (r : SelRange) (w : WordInfo)
    (hch : containsChinese (lineAt r.head).text = true)
    (hw : findNextChineseWord d (lineAt r.head).text
        (r.head - (lineAt r.head).lfrom) forward = some w) :
    moveByGroupRange d lineAt forward extend r =
      Except.ok ⟨none,
        if extend then selRange r.anchor ((lineAt r.head).lfrom + w.from_)
        else cursor ((lineAt r.head).lfrom + w.from_)⟩
    ∧ moveByGroupRange idealSegment (singleLineAt demoText) true false ⟨2, 2⟩
        = Except.ok ⟨none, cursor 4⟩ := by
  refine ⟨?_, rfl⟩
  simp only [moveByGroupRange, hch, if_true, hw]

/-- Witness for claim C6 at the spec's scenario: caret at offset 2 of the
example line, move-right without extending. -/
theorem moveByGroup_head_spec_witness :
    containsChinese (singleLineAt demoText (SelRange.head ⟨2, 2⟩)).text = true
    ∧ findNextChineseWord idealSegment
        (singleLineAt demoText (SelRange.head ⟨2, 2⟩)).text
        (SelRange.head ⟨2, 2⟩ - (singleLineAt demoText (SelRange.head ⟨2, 2⟩)).lfrom)
        true = some ⟨4, 7, [0x5929, 0x5b89, 0x95e8]⟩
    ∧ (moveByGroupRange idealSegment (singleLineAt demoText) true false ⟨2, 2⟩ =
        Except.ok ⟨none,
          if false then
            selRange (SelRange.anchor ⟨2, 2⟩)
              ((singleLineAt demoText (SelRange.head ⟨2, 2⟩)).lfrom
                + WordInfo.from_ ⟨4, 7, [0x5929, 0x5b89, 0x95e8]⟩)
          else cursor ((singleLineAt demoText (SelRange.head ⟨2, 2⟩)).lfrom
                + WordInfo.from_ ⟨4, 7, [0x5929, 0x5b89, 0x95e8]⟩)⟩
      ∧ moveByGroupRange idealSegment (singleLineAt demoText) true false ⟨2, 2⟩
        = Except.ok ⟨none, cursor 4⟩) :=
  ⟨by decide, by decide,
    moveByGroup_head_spec idealSegment (singleLineAt demoText) true false ⟨2, 2⟩
      ⟨4, 7, [0x5929, 0x5b89, 0x95e8]⟩ (by decide) (by decide)⟩

/-- Claim C7: for a non-empty selection (`from != to`), both delete-word
commands delete exactly the selected range `[from, to)` regardless of the
tokenizer and of the surrounding text, and the caret lands at the deleted
span's start. -/
theorem deleteByGroup_selection_spec (d : JText → List JText) (lineAt : Nat → Line)
    (forward : Bool) (r : SelRange) (h : r.sfrom ≠ r.sto) :
    deleteByGroupRange d lineAt forward r
      = Except.ok ⟨some ⟨r.sfrom, r.sto⟩, cursor r.sfrom⟩ := by
  simp only [deleteByGroupRange]
  rw [if_neg h]

/-- Witness for claim C7: selection `[2, 4)` on the example line, both
delete directions. -/
theorem deleteByGroup_selection_spec_witness :
    SelRange.sfrom ⟨2, 4⟩ ≠ SelRange.sto ⟨2, 4⟩
    ∧ deleteByGroupRange idealSegment (singleLineAt demoText) true ⟨2, 4⟩
        = Except.ok ⟨some ⟨SelRange.sfrom ⟨2, 4⟩, SelRange.sto ⟨2, 4⟩⟩,
            cursor (SelRange.sfrom ⟨2, 4⟩)⟩
    ∧ deleteByGroupRange idealSegment (singleLineAt demoText) false ⟨2, 4⟩
        = Except.ok ⟨some ⟨SelRange.sfrom ⟨2, 4⟩, SelRange.sto ⟨2, 4⟩⟩,
            cursor (SelRange.sfrom ⟨2, 4⟩)⟩ :=
  ⟨by decide,
   deleteByGroup_selection_spec idealSegment (singleLineAt demoText) true ⟨2, 4⟩
     (by decide),
   deleteByGroup_selection_spec idealSegment (singleLineAt demoText) false ⟨2, 4⟩
     (by decide)⟩

/-- Claim C10: with `state.readOnly` set, `deleteByGroup` returns `false`
and dispatches no update (the document and selection are untouched), for
any tokenizer, document, direction and selection; and `moveByGroup`
performs no read-only check — its result is independent of the flag. -/
theorem deleteByGroup_readOnly_spec :
    (∀ (d : JText → List JText) (lineAt : Nat → Line) (forward : Bool)
        (sel : List SelRange),
      deleteByGroup d lineAt true forward sel = CommandResult.noop)
    ∧ (∀ (d : JText → List JText) (lineAt : Nat → Line)
        (ro ro' forward extend : Bool) (sel : List SelRange),
      moveByGroup d lineAt ro forward extend sel
        = moveByGroup d lineAt ro' forward extend sel) :=
  ⟨fun _ _ _ _ => rfl, fun _ _ _ _ _ _ _ => rfl⟩

/-- Claim C1 (evaluating the code at the failing input): on `"hello world"`
(no segmentable script) every command's fallback branch evaluates
`defaultCommand(target)(range)`, which calls the boolean result of
`defaultCommand(target)` as a function — a `TypeError` that propagates out
of `changeByRange`, so the command's own dispatch never runs; the claimed
transparent, failure-free per-range delegation does not happen. -/
theorem fallback_delegation_typeError :
    moveByGroupRange idealSegment (singleLineAt helloText) true false (cursor 0)
        = Except.error JsError.typeError
    ∧ moveByGroupRange idealSegment (singleLineAt helloText) false false (cursor 0)
        = Except.error JsError.typeError
    ∧ moveByGroupRange idealSegment (singleLineAt helloText) true true (cursor 0)
        = Except.error JsError.typeError
    ∧ moveByGroupRange idealSegment (singleLineAt helloText) false true (cursor 0)
        = Except.error JsError.typeError
    ∧ deleteByGroupRange idealSegment (singleLineAt helloText) true (cursor 0)
        = Except.error JsError.typeError
    ∧ deleteByGroupRange idealSegment (singleLineAt helloText) false (cursor 0)
        = Except.error JsError.typeError
    ∧ moveByGroup idealSegment (singleLineAt helloText) false true false [cursor 0]
        = CommandResult.thrown JsError.typeError
    ∧ deleteByGroup idealSegment (singleLineAt helloText) false true [cursor 0]
        = CommandResult.thrown JsError.typeError :=
  ⟨rfl, rfl, rfl, rfl, rfl, rfl, rfl, rfl⟩

theorem spans_back_of_forward :
    ∀ (segs : List JText) (c pos : Nat) (r : WordInfo),
      c ≤ pos →
      (segSpans c segs).find? (fun s => decide (pos < s.from_)) = some r →
      ∃ p, ((segSpans c segs).filter
              (fun s => decide (s.from_ < r.from_))).getLast? = some p
           ∧ p.from_ ≤ pos := by
  intro segs
  induction segs with
  | nil => intro c pos r hc h; simp [segSpans] at h
  | cons w rest ih =>
    intro c pos r hc h
    rw [show segSpans c (w :: rest)
        = ⟨c, c + w.length, w⟩ :: segSpans (c + w.length) rest from rfl] at h ⊢
    rw [List.find?_cons_of_neg _ (by simpa using Nat.not_lt.2 hc)] at h
    have hr : pos < r.from_ := by simpa using List.find?_some h
    rw [List.filter_cons_of_pos (by simp only [decide_eq_true_eq]; omega)]
    by_cases hcl : c + w.length ≤ pos
    · obtain ⟨p, hp, hple⟩ := ih (c + w.length) pos r hcl h
      refine ⟨p, ?_, hple⟩
      rw [List.getLast?_cons, hp]
      rfl
    · have hpos : pos < c + w.length := Nat.lt_of_not_le hcl
      cases rest with
      | nil => simp [segSpans, List.find?] at h
      | cons w' rest' =>
        rw [show segSpans (c + w.length) (w' :: rest')
            = ⟨c + w.length, c + w.length + w'.length, w'⟩
              :: segSpans (c + w.length + w'.length) rest' from rfl,
          List.find?_cons_of_pos _ (by simpa using hpos)] at h
        cases h
        refine ⟨⟨c, c + w.length, w⟩, ?_, hc⟩
        rw [show ((⟨c + w.length, c + w.length + w'.length, w'⟩ : WordInfo)).from_
            = c + w.length from rfl,
          segSpans_filter_lt_nil (Nat.le_refl (c + w.length))]
        rfl

/-- Claim C9 (boundary symmetry): whenever the forward adjacent-word search
from `pos` succeeds with result `r`, the backward adjacent-word search from
`r.from` also succeeds and returns a segment whose start is at or before
`pos` — no position is skippable in both directions simultaneously. -/
theorem boundary_symmetry_spec (d : JText → List JText) (text : JText) (pos : Nat)
    (r : WordInfo)
    (h : findNextChineseWord d text pos true = some r) :
    ∃ p, findNextChineseWord d text r.from_ false = some p ∧ p.from_ ≤ pos := by
  have hch : containsChinese text = true := by
    by_contra hc
    rw [Bool.not_eq_true] at hc
    rw [findNextChineseWord, hc] at h
    simp at h
  rw [findNextChineseWord_forward_eq d text pos hch] at h
  rw [findNextChineseWord_backward_eq d text r.from_ hch]
  exact spans_back_of_forward (d text) 0 pos r (Nat.zero_le _) h

/-- Witness for claim C9 on the example line, forward from position 2. -/
theorem boundary_symmetry_spec_witness :
    findNextChineseWord idealSegment demoText 2 true
        = some ⟨4, 7, [0x5929, 0x5b89, 0x95e8]⟩
    ∧ ∃ p, findNextChineseWord idealSegment demoText
          (WordInfo.from_ ⟨4, 7, [0x5929, 0x5b89, 0x95e8]⟩) false = some p
        ∧ p.from_ ≤ 2 :=
  ⟨by decide,
    boundary_symmetry_spec idealSegment demoText 2
      ⟨4, 7, [0x5929, 0x5b89, 0x95e8]⟩ (by decide)⟩

theorem decoLoop_eq :
    ∀ (segs : List JText) (f pos : Nat),
      decoLoop f pos segs
        = (segSpans (f + pos) segs).map (fun s => ⟨s.from_, s.to_⟩) := by
  intro segs
  induction segs with
  | nil => intro f pos; rfl
  | cons w rest ih =>
    intro f pos
    show (⟨f + pos, f + pos + w.length⟩ : DecoRange) :: decoLoop f (pos + w.length) rest
        = (⟨f + pos, f + pos + w.length⟩ : DecoRange)
          :: (segSpans (f + pos + w.length) rest).map (fun s => ⟨s.from_, s.to_⟩)
    rw [ih f (pos + w.length), Nat.add_assoc]

theorem decorationsForRange_eq_map (d : JText → List JText) (doc : JText)
    (f t : Nat) (hch : containsChinese (sliceString doc f t) = true) :
    decorationsForRange d doc f t
      = (segSpans f (d (sliceString doc f t))).map (fun s => ⟨s.from_, s.to_⟩) := by
  rw [decorationsForRange]
  simp only [hch, if_true]
  rw [decoLoop_eq, Nat.add_zero]

theorem sliceString_length_le (doc : JText) (f t : Nat) :
    (sliceString doc f t).length ≤ t - f := by
  rw [sliceString]
  simp [Nat.min_le_left]

theorem decorationsForRange_bounds (d : JText → List JText) (doc : JText)
    (f t : Nat) (hcov : ∀ s, sumLen (d s) = s.length) (hft : f ≤ t) :
    ∀ x ∈ decorationsForRange d doc f t,
      f ≤ x.dfrom ∧ x.dfrom ≤ x.dto ∧ x.dto ≤ t := by
  intro x hx
  cases hch : containsChinese (sliceString doc f t) with
  | false => rw [decorationsForRange] at hx; simp [hch] at hx
  | true =>
    rw [decorationsForRange_eq_map d doc f t hch] at hx
    obtain ⟨s, hs, hxe⟩ := List.mem_map.1 hx
    subst hxe
    refine ⟨mem_segSpans_le hs, mem_segSpans_from_le_to hs, ?_⟩
    have h1 := mem_segSpans_to_le hs
    have h2 : sumLen (d (sliceString doc f t)) = (sliceString doc f t).length := hcov _
    have h3 := sliceString_length_le doc f t
    show s.to_ ≤ t
    omega

theorem decorationsForRange_chain (d : JText → List JText) (doc : JText)
    (f t : Nat) :
    List.Chain' (fun a b : DecoRange => a.dto ≤ b.dfrom)
      (decorationsForRange d doc f t) := by
  cases hch : containsChinese (sliceString doc f t) with
  | false => rw [decorationsForRange]; simp [hch]
  | true =>
    rw [decorationsForRange_eq_map d doc f t hch]
    rw [List.chain'_map]
    exact List.Chain'.imp (fun a b hab => Nat.le_of_eq hab) segSpans_chain'

theorem ranges_tail_bound :
    ∀ (l : List (Nat × Nat)) (f t : Nat),
      List.Chain' (fun a b : Nat × Nat => a.2 ≤ b.1) ((f, t) :: l) →
      (∀ r ∈ l, r.1 ≤ r.2) → ∀ r ∈ l, t ≤ r.1 := by
  intro l
  induction l with
  | nil => intro f t _ _ r hr; simp at hr
  | cons a l' ih =>
    obtain ⟨a1, a2⟩ := a
    intro f t hch hwf r hr
    have h1 : t ≤ a1 := (List.chain'_cons.1 hch).1
    rcases List.mem_cons.1 hr with hr | hr
    · subst hr; exact h1
    · have h2 : a1 ≤ a2 := hwf (a1, a2) (by simp)
      have h3 := ih a1 a2 (List.chain'_cons.1 hch).2
        (fun r hr => hwf r (List.mem_cons_of_mem _ hr)) r hr
      omega

theorem buildDecorations_chain_aux (d : JText → List JText) (doc : JText)
    (hcov : ∀ s, sumLen (d s) = s.length) :
    ∀ (ranges : List (Nat × Nat)) (b : Nat),
      List.Chain' (fun a c : Nat × Nat => a.2 ≤ c.1) ranges →
      (∀ r ∈ ranges, r.1 ≤ r.2) →
      (∀ r ∈ ranges, b ≤ r.1) →
      List.Chain' (fun x y : DecoRange => x.dto ≤ y.dfrom)
          (buildDecorations d doc ranges)
      ∧ ∀ x ∈ buildDecorations d doc ranges, b ≤ x.dfrom ∧ x.dfrom ≤ x.dto := by
  intro ranges
  induction ranges with
  | nil =>
    intro b _ _ _
    refine ⟨by simp [buildDecorations], ?_⟩
    intro x hx
    simp [buildDecorations] at hx
  | cons rg rest ih =>
    obtain ⟨f, t⟩ := rg
    intro b hch hwf hb
    have hft : f ≤ t := hwf (f, t) (by simp)
    have hbf : b ≤ f := hb (f, t) (by simp)
    have hrest_wf : ∀ r ∈ rest, r.1 ≤ r.2 :=
      fun r hr => hwf r (List.mem_cons_of_mem _ hr)
    have hrest_lb : ∀ r ∈ rest, t ≤ r.1 := ranges_tail_bound rest f t hch hrest_wf
    obtain ⟨ihc, ihm⟩ := ih t hch.tail hrest_wf hrest_lb
    have hbuild : buildDecorations d doc ((f, t) :: rest)
        = decorationsForRange d doc f t ++ buildDecorations d doc rest := by
      simp [buildDecorations]
    rw [hbuild]
    have hbnd := decorationsForRange_bounds d doc f t hcov hft
    constructor
    · rw [List.chain'_append]
      refine ⟨decorationsForRange_chain d doc f t, ihc, ?_⟩
      intro x hx y hy
      have hxm : x ∈ decorationsForRange d doc f t := by
        obtain ⟨hne, hxe⟩ := List.mem_getLast?_eq_getLast hx
        rw [hxe]
        exact List.getLast_mem hne
      have hym : y ∈ buildDecorations d doc rest := List.mem_of_mem_head? hy
      have h1 : x.dto ≤ t := (hbnd x hxm).2.2
      have h2 : t ≤ y.dfrom := (ihm y hym).1
      omega
    · intro x hx
      rcases List.mem_append.1 hx with hx | hx
      · have := hbnd x hx
        exact ⟨Nat.le_trans hbf this.1, this.2.1⟩
      · have := ihm x hx
        exact ⟨Nat.le_trans (Nat.le_trans hbf hft) this.1, this.2⟩

/-- Claim C8: in one decoration-builder pass, a visible range whose slice
contains no segmentable script contributes no decorations; a range whose
slice does contributes exactly one decoration
`[from + runningOffset, from + runningOffset + length(segment))` per
segment, in order, running offset starting at 0 (this is the `map` over the
cumulative spans); and, for ascending non-overlapping visible ranges and a
tokenizer satisfying the coverage contract, the full pass is in
non-decreasing `from` order and non-overlapping. -/
theorem buildDecorations_spec (d : JText → List JText) (doc : JText)
    (ranges : List (Nat × Nat))
    (hcov : ∀ s, sumLen (d s) = s.length)
    (hasc : List.Chain' (fun a c : Nat × Nat => a.2 ≤ c.1) ranges)
    (hwf : ∀ r ∈ ranges, r.1 ≤ r.2) :
    (∀ f t, containsChinese (sliceString doc f t) = false →
        decorationsForRange d doc f t = [])
    ∧ (∀ f t, containsChinese (sliceString doc f t) = true →
        decorationsForRange d doc f t
          = (segSpans f (d (sliceString doc f t))).map (fun s => ⟨s.from_, s.to_⟩))
    ∧ List.Chain' (fun x y : DecoRange => x.dto ≤ y.dfrom)
        (buildDecorations d doc ranges)
    ∧ (∀ x ∈ buildDecorations d doc ranges, x.dfrom ≤ x.dto) := by
  obtain ⟨hc, hm⟩ := buildDecorations_chain_aux d doc hcov ranges 0 hasc hwf
    (fun r _ => Nat.zero_le _)
  refine ⟨?_, fun f t hch => decorationsForRange_eq_map d doc f t hch, hc,
    fun x hx => (hm x hx).2⟩
  intro f t hch
  rw [decorationsForRange]
  simp [hch]

theorem idealSegment_sumLen : ∀ s : JText, sumLen (idealSegment s) = s.length := by
  intro s
  rw [idealSegment]
  by_cases h : s = demoText
  · rw [if_pos h, h]; rfl
  · rw [if_neg h]; simp [sumLen]

/-- Witness for claim C8: the example document with the single visible range
`[0, 7)` and the idealized tokenizer. -/
theorem buildDecorations_spec_witness :
    (∀ r ∈ [((0 : Nat), (7 : Nat))], r.1 ≤ r.2)
    ∧ ((∀ f t, containsChinese (sliceString demoText f t) = false →
          decorationsForRange idealSegment demoText f t = [])
      ∧ (∀ f t, containsChinese (sliceString demoText f t) = true →
          decorationsForRange idealSegment demoText f t
            = (segSpans f (idealSegment (sliceString demoText f t))).map
                (fun s => ⟨s.from_, s.to_⟩))
      ∧ List.Chain' (fun x y : DecoRange => x.dto ≤ y.dfrom)
          (buildDecorations idealSegment demoText [(0, 7)])
      ∧ (∀ x ∈ buildDecorations idealSegment demoText [(0, 7)],
          x.dfrom ≤ x.dto)) :=
  ⟨by decide,
    buildDecorations_spec idealSegment demoText [(0, 7)] idealSegment_sumLen
      (List.chain'_singleton _) (by decide)⟩

end ChineseSeg
